import Mathlib

/-!
Verification of the Mandos value interpreter
(test-util/mandos/json/valueinterpreter/interpreter.go).

Shallow embedding conventions:
* Go strings are modelled as `List Char` (the inputs of interest are ASCII);
  Go `[]byte` values are modelled as `List Nat` of byte values.
* Fallible Go functions returning `(T, error)` are modelled as
  `Except String T`; the error string models the Go error message.
* The external collaborators `keccak256` and `address` (package-level helper
  functions whose bodies live outside this package) and the `FileResolver`
  interface are modelled as fields of the `ValueInterpreter` structure.
* The gn-bigint twos-complement library (`twos.ToBytes`,
  `twos.ToBytesOfLength`, `twos.CopyAlignRight`) is modelled from its
  documented contract: standard two's-complement encoding of
  arbitrary-precision integers, minimal or fixed-width.
* The mutually recursive string interpreter is defined with a fuel
  parameter; `interpGo_eq` proves the result is independent of the fuel
  once it is at least `4 * length + 2`, which the wrappers always supply.
-/

abbrev Str := List Char

/-- Rebuild a Go string from its characters (used in error messages). -/
def chrs (cs : Str) : String := String.mk cs

/-- Go `[]byte(s)` for ASCII strings: one byte per character. -/
def asciiBytes (cs : Str) : List Nat := cs.map Char.toNat

/-- Go `strings.HasPrefix`. -/
def startsWithL : Str → Str → Bool
  | [], _ => true
  | _ :: _, [] => false
  | p :: ps, c :: cs => p == c && startsWithL ps cs

/-- Go `strings.Split(s, "|")`: split on every occurrence of the bar. -/
def splitOnBar : Str → List Str
  | [] => [[]]
  | c :: rest =>
    if c = '|' then [] :: splitOnBar rest
    else
      match splitOnBar rest with
      | [] => [[c]]
      | p :: ps => (c :: p) :: ps

/-- Total length of a list of strings. -/
def sumLen : List Str → Nat
  | [] => 0
  | p :: ps => p.length + sumLen ps

/-- Whether `pat` occurs as a contiguous segment of the second string. -/
def containsSeg (pat : Str) : Str → Bool
  | [] => pat.isEmpty
  | c :: cs => startsWithL pat (c :: cs) || containsSeg pat cs

-- The prefix constants of the interpreter (interpreter.go lines 15-28).

def filePfx : Str := ("file:").toList

def keccakPfx : Str := ("keccak256:").toList

def addrPfx : Str := ("address:").toList

def u64Pfx : Str := ("u64:").toList

def u32Pfx : Str := ("u32:").toList

def u16Pfx : Str := ("u16:").toList

def u8Pfx : Str := ("u8:").toList

def i64Pfx : Str := ("i64:").toList

def i32Pfx : Str := ("i32:").toList

def i16Pfx : Str := ("i16:").toList

def i8Pfx : Str := ("i8:").toList

/-- The backtick character, written by code point to keep the source plain. -/
def backtickChar : Char := Char.ofNat 96

/-- The apostrophe character, written by code point to keep the source plain. -/
def aposChar : Char := Char.ofNat 39

/-- `strPrefixes`: the ASCII string-literal markers, in source order. -/
def strPfxs : List Str := [("str:").toList, [backtickChar, backtickChar], [aposChar, aposChar]]

def falseLit : Str := ("false").toList

def trueLit : Str := ("true").toList

/-- Value of one digit character under the given base (Go `big.Int.SetString`
digit handling restricted to bases 2 and 10, the only bases used). -/
def digVal (base : Nat) (c : Char) : Option Nat :=
  if c.isDigit ∧ c.toNat - 48 < base then some (c.toNat - 48) else none

/-- Accumulating digit parser. -/
def digitsValGo (base : Nat) : Str → Nat → Option Nat
  | [], acc => some acc
  | c :: cs, acc =>
    match digVal base c with
    | none => none
    | some v => digitsValGo base cs (base * acc + v)

/-- Parse a non-empty sequence of digits in the given base. -/
def digitsValOpt (base : Nat) (cs : Str) : Option Nat :=
  if cs = [] then none else digitsValGo base cs 0

/-- Go `big.Int.SetString(s, base)` for bases 2 and 10: an optional sign
followed by a non-empty run of digits of the base; anything else fails. -/
def bigIntSetString (cs : Str) (base : Nat) : Option Int :=
  match cs with
  | '+' :: rest => (digitsValOpt base rest).map (fun n => (n : Int))
  | '-' :: rest => (digitsValOpt base rest).map (fun n => -(n : Int))
  | _ => (digitsValOpt base cs).map (fun n => (n : Int))

/-- Hex digit value, accepting 0-9, a-f and A-F (Go `encoding/hex`). -/
def hexDigitVal (c : Char) : Option Nat :=
  if '0' ≤ c ∧ c ≤ '9' then some (c.toNat - 48)
  else if 'a' ≤ c ∧ c ≤ 'f' then some (c.toNat - 87)
  else if 'A' ≤ c ∧ c ≤ 'F' then some (c.toNat - 55)
  else none

/-- Go `hex.DecodeString`: decode pairs of hex digits; an invalid character
is reported by the decoder's own error, which names only that byte. -/
def hexDecode : Str → Except String (List Nat)
  | [] => .ok []
  | [_] => .error ("encoding/hex: odd length hex string")
  | a :: b :: rest =>
    match hexDigitVal a with
    | none => .error (("encoding/hex: invalid byte: ") ++ chrs [a])
    | some va =>
      match hexDigitVal b with
      | none => .error (("encoding/hex: invalid byte: ") ++ chrs [b])
      | some vb =>
        match hexDecode rest with
        | .error e => .error e
        | .ok bs => .ok ((16 * va + vb) :: bs)

/-- Odd-length padding done by `interpretUnsignedNumber`: prepend one zero
nibble when the hex digit count is odd. -/
def hexPad (cs : Str) : Str := if cs.length % 2 = 1 then '0' :: cs else cs

/-- Hex digit value with default 0 (for specification-side computations). -/
def hexValD (c : Char) : Nat := (hexDigitVal c).getD 0

/-- The numeric value denoted by a string of hex digits. -/
def hexVal (cs : Str) : Nat := cs.foldl (fun acc c => 16 * acc + hexValD c) 0

/-- The bytes obtained by decoding hex digit pairs directly (total version). -/
def hexBytesOk : Str → List Nat
  | a :: b :: rest => (16 * hexValD a + hexValD b) :: hexBytesOk rest
  | _ => []

/-- The big-endian value of a byte sequence (Go `big.Int.SetBytes`). -/
def beVal (bs : List Nat) : Nat := bs.foldl (fun acc b => 256 * acc + b) 0

/-- Worker for `natToBEBytes`, with fuel bounding the number of digits. -/
def natToBEBytesGo : Nat → Nat → List Nat → List Nat
  | 0, _, acc => acc
  | fuel + 1, n, acc => if n = 0 then acc else natToBEBytesGo fuel (n / 256) (n % 256 :: acc)

/-- Go `big.Int.Bytes()`: minimal big-endian bytes of a non-negative value,
empty for zero. -/
def natToBEBytes (n : Nat) : List Nat := natToBEBytesGo n n []

/-- Exactly `w` big-endian bytes of `n` (low bytes of `n`). -/
def natToBEBytesPad : Nat → Nat → List Nat
  | _, 0 => []
  | n, w + 1 => natToBEBytesPad (n / 256) w ++ [n % 256]

/-- Whether `n` is representable as a `w`-byte two's-complement value. -/
def fitsWidth (n : Int) (w : Nat) : Bool :=
  decide (-((2 : Int) ^ (8 * w - 1)) ≤ n) && decide (n < (2 : Int) ^ (8 * w - 1))

/-- Fuel search for the minimal two's-complement width. -/
def twosMinWidthGo : Nat → Nat → Int → Nat
  | 0, w, _ => w
  | fuel + 1, w, n => if fitsWidth n w then w else twosMinWidthGo fuel (w + 1) n

/-- Modelled from the spec: gn-bigint `twos.ToBytes`, the minimal
two's-complement encoding of a signed arbitrary-precision integer
(spec section 4.1, `signedMinimalTwosComplementBytes`). -/
def twosToBytes (n : Int) : List Nat :=
  if n = 0 then []
  else
    let w := twosMinWidthGo n.natAbs 1 n
    natToBEBytesPad ((n % ((2 : Int) ^ (8 * w))).toNat) w

/-- Modelled from the spec: gn-bigint `twos.ToBytesOfLength`, the exact
`w`-byte two's-complement encoding, failing when the value does not fit
(spec section 4.1, `signedFixedWidthTwosComplementBytes`). -/
def twosToBytesOfLength (n : Int) (w : Nat) : Except String (List Nat) :=
  if fitsWidth n w then .ok (natToBEBytesPad ((n % ((2 : Int) ^ (8 * w))).toNat) w)
  else .error ("argument does not fit in requested number of bytes")

/-- Modelled from the spec: gn-bigint `twos.CopyAlignRight`, right-aligning
bytes in a `w`-byte field padded on the left with zeros. -/
def copyAlignRight (bs : List Nat) (w : Nat) : List Nat :=
  List.replicate (w - bs.length) 0 ++ bs

/-- Strip the digit-grouping separators underscore and comma
(interpreter.go lines 194-195). -/
def stripSeps (cs : Str) : Str := cs.filter (fun c => ¬(c = '_' ∨ c = ','))

/-- `interpretUnsignedNumber` (interpreter.go lines 193-227). The hex branch
decodes the raw (unstripped) text; binary and decimal parse the stripped
text as a big integer and take its minimal bytes. -/
def interpretUnsignedNumber (strRaw : Str) : Except String (List Nat) :=
  if startsWithL (("0x").toList) strRaw || startsWithL (("0X").toList) strRaw then
    hexDecode (hexPad (strRaw.drop 2))
  else if startsWithL (("0b").toList) strRaw || startsWithL (("0B").toList) strRaw then
    match bigIntSetString ((stripSeps strRaw).drop 2) 2 with
    | none => .error (("could not parse binary value: ") ++ chrs strRaw)
    | some v => .ok (natToBEBytes v.natAbs)
  else
    match bigIntSetString (stripSeps strRaw) 10 with
    | none => .error (("could not parse base 10 value: ") ++ chrs strRaw)
    | some v => .ok (natToBEBytes v.natAbs)

/-- `interpretUnsignedNumberFixedWidth` (interpreter.go lines 229-242). -/
def interpretUnsignedNumberFixedWidth (strRaw : Str) (targetWidth : Nat) :
    Except String (List Nat) :=
  match interpretUnsignedNumber strRaw with
  | .error e => .error e
  | .ok numberBytes =>
    if targetWidth = 0 then .ok numberBytes
    else if targetWidth < numberBytes.length then
      .error (("representation of ") ++ chrs strRaw ++ (" does not fit in ") ++
        toString targetWidth ++ (" bytes"))
    else .ok (copyAlignRight numberBytes targetWidth)

/-- `interpretNumber` (interpreter.go lines 167-191). Go indexes `strRaw[0]`
and would panic on an empty string; that unreachable case is modelled as an
error. -/
def interpretNumber (strRaw : Str) (targetWidth : Nat) : Except String (List Nat) :=
  match strRaw with
  | [] => .error ("invalid number: empty string")
  | c :: rest =>
    if c = '-' ∨ c = '+' then
      match interpretUnsignedNumber rest with
      | .error e => .error e
      | .ok numberBytes =>
        let number : Int :=
          if c = '-' then -(beVal numberBytes : Int) else (beVal numberBytes : Int)
        if targetWidth = 0 then .ok (twosToBytes number)
        else twosToBytesOfLength number targetWidth
    else
      if targetWidth = 0 then interpretUnsignedNumber (c :: rest)
      else interpretUnsignedNumberFixedWidth (c :: rest) targetWidth

/-- `tryInterpretFixedWidth` (interpreter.go lines 244-280); `ok none`
models the `parsed = false` return. -/
def tryInterpretFixedWidth (strRaw : Str) : Except String (Option (List Nat)) :=
  if startsWithL u64Pfx strRaw then
    (interpretUnsignedNumberFixedWidth (strRaw.drop u64Pfx.length) 8).map some
  else if startsWithL u32Pfx strRaw then
    (interpretUnsignedNumberFixedWidth (strRaw.drop u32Pfx.length) 4).map some
  else if startsWithL u16Pfx strRaw then
    (interpretUnsignedNumberFixedWidth (strRaw.drop u16Pfx.length) 2).map some
  else if startsWithL u8Pfx strRaw then
    (interpretUnsignedNumberFixedWidth (strRaw.drop u8Pfx.length) 1).map some
  else if startsWithL i64Pfx strRaw then
    (interpretNumber (strRaw.drop i64Pfx.length) 8).map some
  else if startsWithL i32Pfx strRaw then
    (interpretNumber (strRaw.drop i32Pfx.length) 4).map some
  else if startsWithL i16Pfx strRaw then
    (interpretNumber (strRaw.drop i16Pfx.length) 2).map some
  else if startsWithL i8Pfx strRaw then
    (interpretNumber (strRaw.drop i8Pfx.length) 1).map some
  else .ok none

/-- First matching string-literal marker, returning the remainder. -/
def findStrPfx : List Str → Str → Option Str
  | [], _ => none
  | p :: ps, s => if startsWithL p s then some (s.drop p.length) else findStrPfx ps s

/-- The `ValueInterpreter` context (interpreter.go lines 31-33). Besides the
`FileResolver` field of the source structure, the two package-level
collaborators are carried here. `keccak256` and `address` are modelled from
the spec: their bodies are outside this package (spec section 6,
`HashProvider.keccak256` and `AddressCodec.deriveAddress`). -/
structure ValueInterpreter where
  FileResolver : Option (Str → Except String (List Nat))
  keccak256 : List Nat → Except String (List Nat)
  address : List Nat → Except String (List Nat)

/-- The non-recursive tail of `InterpretString` (rules after concatenation:
boolean literals, string literals, address, fixed width, general numbers;
interpreter.go lines 131-163). -/
def interpretLower (vi : ValueInterpreter) (strRaw : Str) : Except String (List Nat) :=
  if strRaw = falseLit then .ok []
  else if strRaw = trueLit then .ok [1]
  else
    match findStrPfx strPfxs strRaw with
    | some rest => .ok (asciiBytes rest)
    | none =>
      if startsWithL addrPfx strRaw then vi.address (asciiBytes (strRaw.drop addrPfx.length))
      else
        match tryInterpretFixedWidth strRaw with
        | .error e => .error e
        | .ok (some result) => .ok result
        | .ok none => interpretNumber strRaw 0

/-- Fueled worker for `InterpretString` (interpreter.go lines 84-164): the
`inl` case interprets one string, the `inr` case interprets a list of
concatenation parts in order, aborting on the first error. -/
def interpGo (vi : ValueInterpreter) : Nat → Str ⊕ List Str → Except String (List Nat)
  | 0, _ => .error ("recursion limit exceeded")
  | fuel + 1, .inl strRaw =>
    if strRaw = [] then .ok []
    else if startsWithL filePfx strRaw then
      match vi.FileResolver with
      | none => .error ("parser FileResolver not provided")
      | some r => r (strRaw.drop filePfx.length)
    else if startsWithL keccakPfx strRaw then
      match interpGo vi fuel (.inl (strRaw.drop keccakPfx.length)) with
      | .error e => .error (("cannot parse keccak256 argument: ") ++ e)
      | .ok arg =>
        match vi.keccak256 arg with
        | .error e => .error (("error computing keccak256: ") ++ e)
        | .ok h => .ok h
    else if 1 < (splitOnBar strRaw).length then
      interpGo vi fuel (.inr (splitOnBar strRaw))
    else interpretLower vi strRaw
  | _ + 1, .inr [] => .ok []
  | fuel + 1, .inr (p :: ps) =>
    match interpGo vi fuel (.inl p) with
    | .error e => .error e
    | .ok v =>
      match interpGo vi fuel (.inr ps) with
      | .error e => .error e
      | .ok rest => .ok (v ++ rest)

/-- Fuel needed by `interpGo` to be fuel-independent on the given input. -/
def needFuel : Str ⊕ List Str → Nat
  | .inl s => 4 * s.length + 2
  | .inr ps => 4 * sumLen ps + 2 * ps.length + 1

/-- `InterpretString` (interpreter.go line 84), with always-sufficient fuel. -/
def InterpretString (vi : ValueInterpreter) (strRaw : Str) : Except String (List Nat) :=
  interpGo vi (4 * strRaw.length + 2) (.inl strRaw)

/-- Interpret a list of concatenation parts in order (the loop at
interpreter.go lines 120-128), with always-sufficient fuel. -/
def InterpretParts (vi : ValueInterpreter) (ps : List Str) : Except String (List Nat) :=
  interpGo vi (4 * sumLen ps + 2 * ps.length + 1) (.inr ps)

-- A concrete interpreter instance for closed evaluations: no file resolver,
-- and a hash collaborator producing a fixed 32-byte digest (the spec only
-- guarantees a fixed-size 32-byte digest; the counterexamples below hold
-- for every such hash).
def vi0 : ValueInterpreter where
  FileResolver := none
  keccak256 := fun _ => .ok (List.replicate 32 0)
  address := fun bs => .ok bs

-- A concrete interpreter instance whose file resolver returns the ASCII
-- bytes of the logical name it receives.
def viFile : ValueInterpreter where
  FileResolver := some (fun cs => .ok (asciiBytes cs))
  keccak256 := fun _ => .ok (List.replicate 32 0)
  address := fun bs => .ok bs

-- The ordered JSON tree (orderedjson package), restricted to the variants
-- the evaluator recognizes; `other` stands for any further oj variant and
-- reaches the default error branch of InterpretSubTree.

mutual

inductive OJsonObject where
  | str (value : String)
  | list (items : OJsonList)
  | map (orderedKV : OJsonKVList)
  | other

inductive OJsonList where
  | nil
  | cons (head : OJsonObject) (tail : OJsonList)

inductive OJsonKVList where
  | nil
  | cons (key : String) (value : OJsonObject) (tail : OJsonKVList)

end

/-- The ordered values of a key-value list, keys discarded. -/
def valuesOf : OJsonKVList → OJsonList
  | .nil => .nil
  | .cons _ v rest => .cons v (valuesOf rest)

mutual

/-- `InterpretSubTree` (interpreter.go lines 41-72): strings are interpreted,
lists and maps evaluate their items/values in order and concatenate,
aborting on the first error; map keys are ignored. -/
def InterpretSubTree (vi : ValueInterpreter) : OJsonObject → Except String (List Nat)
  | .str s => InterpretString vi s.toList
  | .list items => interpretOJList vi items
  | .map kvs => interpretOJKVs vi kvs
  | .other => .error ("cannot interpret given JSON subtree as value")

/-- The list loop of `InterpretSubTree` (interpreter.go lines 46-56). -/
def interpretOJList (vi : ValueInterpreter) : OJsonList → Except String (List Nat)
  | .nil => .ok []
  | .cons x xs =>
    match InterpretSubTree vi x with
    | .error e => .error e
    | .ok v =>
      match interpretOJList vi xs with
      | .error e => .error e
      | .ok rest => .ok (v ++ rest)

/-- The map loop of `InterpretSubTree` (interpreter.go lines 58-68): only
the values are evaluated, in insertion order. -/
def interpretOJKVs (vi : ValueInterpreter) : OJsonKVList → Except String (List Nat)
  | .nil => .ok []
  | .cons _ v rest =>
    match InterpretSubTree vi v with
    | .error e => .error e
    | .ok bs =>
      match interpretOJKVs vi rest with
      | .error e => .error e
      | .ok more => .ok (bs ++ more)

end

-- Step equations of the fueled worker, one per pattern.

theorem interpGo_inl_succ (vi : ValueInterpreter) (fuel : Nat) (strRaw : Str) :
    interpGo vi (fuel + 1) (.inl strRaw) =
      (if strRaw = [] then .ok []
       else if startsWithL filePfx strRaw then
         match vi.FileResolver with
         | none => .error ("parser FileResolver not provided")
         | some r => r (strRaw.drop filePfx.length)
       else if startsWithL keccakPfx strRaw then
         match interpGo vi fuel (.inl (strRaw.drop keccakPfx.length)) with
         | .error e => .error (("cannot parse keccak256 argument: ") ++ e)
         | .ok arg =>
           match vi.keccak256 arg with
           | .error e => .error (("error computing keccak256: ") ++ e)
           | .ok h => .ok h
       else if 1 < (splitOnBar strRaw).length then
         interpGo vi fuel (.inr (splitOnBar strRaw))
       else interpretLower vi strRaw) := rfl

theorem interpGo_inr_nil_succ (vi : ValueInterpreter) (fuel : Nat) :
    interpGo vi (fuel + 1) (.inr []) = .ok [] := rfl

theorem interpGo_inr_cons_succ (vi : ValueInterpreter) (fuel : Nat) (p : Str) (ps : List Str) :
    interpGo vi (fuel + 1) (.inr (p :: ps)) =
      (match interpGo vi fuel (.inl p) with
       | .error e => .error e
       | .ok v =>
         match interpGo vi fuel (.inr ps) with
         | .error e => .error e
         | .ok rest => .ok (v ++ rest)) := rfl

-- Elementary facts about the split and the prefix test.

theorem splitOnBar_cons_bar (rest : Str) :
    splitOnBar ('|' :: rest) = [] :: splitOnBar rest := by
  simp [splitOnBar]

theorem splitOnBar_ne_nil (s : Str) : splitOnBar s ≠ [] := by
  induction s with
  | nil => simp [splitOnBar]
  | cons c rest ih =>
    by_cases hc : c = '|'
    · simp [splitOnBar, hc]
    · simp only [splitOnBar, if_neg hc]
      cases h : splitOnBar rest with
      | nil => simp
      | cons p ps => simp

theorem splitOnBar_cons_ne (c : Char) (rest p : Str) (ps : List Str) (hc : c ≠ '|')
    (h : splitOnBar rest = p :: ps) : splitOnBar (c :: rest) = (c :: p) :: ps := by
  simp [splitOnBar, hc, h]

theorem splitOnBar_head (rest : Str) : ∃ p ps, splitOnBar rest = p :: ps := by
  cases h : splitOnBar rest with
  | nil => exact absurd h (splitOnBar_ne_nil rest)
  | cons p ps => exact ⟨p, ps, rfl⟩

theorem splitOnBar_sumLen (s : Str) :
    sumLen (splitOnBar s) + (splitOnBar s).length = s.length + 1 := by
  induction s with
  | nil => simp [splitOnBar, sumLen]
  | cons c rest ih =>
    by_cases hc : c = '|'
    · subst hc
      rw [splitOnBar_cons_bar]
      simp only [sumLen, List.length_cons, List.length_nil] at ih ⊢
      omega
    · obtain ⟨p, ps, hs⟩ := splitOnBar_head rest
      rw [splitOnBar_cons_ne c rest p ps hc hs]
      rw [hs] at ih
      simp only [sumLen, List.length_cons] at ih ⊢
      omega

theorem splitOnBar_nobar (s : Str) (h : '|' ∉ s) : splitOnBar s = [s] := by
  induction s with
  | nil => rfl
  | cons c rest ih =>
    have hc : c ≠ '|' := fun hc => h (hc ▸ List.mem_cons_self c rest)
    have hrest : '|' ∉ rest := fun hr => h (List.mem_cons_of_mem c hr)
    exact splitOnBar_cons_ne c rest rest [] hc (ih hrest)

theorem splitOnBar_bar_mem (s : Str) (h : '|' ∈ s) : 1 < (splitOnBar s).length := by
  induction s with
  | nil => simp at h
  | cons c rest ih =>
    by_cases hc : c = '|'
    · subst hc
      rw [splitOnBar_cons_bar]
      obtain ⟨p, ps, hs⟩ := splitOnBar_head rest
      rw [hs]
      simp
    · have hrest : '|' ∈ rest := by
        rcases List.mem_cons.mp h with h1 | h1
        · exact absurd h1.symm hc
        · exact h1
      obtain ⟨p, ps, hs⟩ := splitOnBar_head rest
      rw [splitOnBar_cons_ne c rest p ps hc hs]
      have := ih hrest
      rw [hs] at this
      simpa using this

theorem splitOnBar_single (s : Str) (h : ¬1 < (splitOnBar s).length) :
    splitOnBar s = [s] := by
  by_cases hm : '|' ∈ s
  · exact absurd (splitOnBar_bar_mem s hm) h
  · exact splitOnBar_nobar s hm

theorem splitOnBar_append (a b : Str) :
    splitOnBar (a ++ '|' :: b) = splitOnBar a ++ splitOnBar b := by
  induction a with
  | nil => simp [splitOnBar_cons_bar, splitOnBar]
  | cons c as ih =>
    by_cases hc : c = '|'
    · subst hc
      rw [List.cons_append, splitOnBar_cons_bar, ih, splitOnBar_cons_bar, List.cons_append]
    · obtain ⟨p, ps, hs⟩ := splitOnBar_head as
      rw [List.cons_append, splitOnBar_cons_ne c _ p (ps ++ splitOnBar b) hc (by rw [ih, hs]; rfl),
        splitOnBar_cons_ne c as p ps hc hs, List.cons_append]

theorem startsWithL_append_self (p r : Str) : startsWithL p (p ++ r) = true := by
  induction p with
  | nil => rfl
  | cons c ps ih => simp [startsWithL, ih]

theorem startsWithL_length_le (p s : Str) (h : startsWithL p s = true) :
    p.length ≤ s.length := by
  induction p generalizing s with
  | nil => simp
  | cons c ps ih =>
    cases s with
    | nil => simp [startsWithL] at h
    | cons d ds =>
      simp only [startsWithL, Bool.and_eq_true] at h
      have := ih ds h.2
      simp only [List.length_cons]
      omega

theorem not_startsWithL_append_bar (p a b : Str) (hp : '|' ∉ p)
    (h : startsWithL p a = false) : startsWithL p (a ++ '|' :: b) = false := by
  induction p generalizing a with
  | nil => simp [startsWithL] at h
  | cons c ps ih =>
    cases a with
    | nil =>
      have hc : c ≠ '|' := fun hc => hp (hc ▸ List.mem_cons_self c ps)
      simp [startsWithL, hc]
    | cons d ds =>
      simp only [List.cons_append, startsWithL, Bool.and_eq_false_iff] at h ⊢
      rcases h with h | h
      · exact Or.inl h
      · exact Or.inr (ih ds (fun hm => hp (List.mem_cons_of_mem c hm)) h)

-- Fuel independence: once the fuel reaches `needFuel`, the result is fixed.

theorem interpGo_eq (vi : ValueInterpreter) :
    ∀ f1 f2 x, needFuel x ≤ f1 → needFuel x ≤ f2 →
      interpGo vi f1 x = interpGo vi f2 x := by
  intro f1
  induction f1 using Nat.strong_induction_on with
  | _ f1 ih =>
    intro f2 x h1 h2
    cases x with
    | inl s =>
      simp only [needFuel] at h1 h2
      obtain ⟨g1, rfl⟩ : ∃ g, f1 = g + 1 := ⟨f1 - 1, by omega⟩
      obtain ⟨g2, rfl⟩ : ∃ g, f2 = g + 1 := ⟨f2 - 1, by omega⟩
      rw [interpGo_inl_succ, interpGo_inl_succ]
      by_cases he : s = []
      · rw [if_pos he, if_pos he]
      · rw [if_neg he, if_neg he]
        by_cases hfb : startsWithL filePfx s = true
        · rw [if_pos hfb, if_pos hfb]
        · rw [if_neg hfb, if_neg hfb]
          by_cases hkb : startsWithL keccakPfx s = true
          · rw [if_pos hkb, if_pos hkb]
            have hlen : keccakPfx.length ≤ s.length := startsWithL_length_le _ _ hkb
            have hkl : keccakPfx.length = 10 := rfl
            have hrec : interpGo vi g1 (.inl (s.drop keccakPfx.length)) =
                interpGo vi g2 (.inl (s.drop keccakPfx.length)) := by
              apply ih g1 (Nat.lt_succ_self g1) g2
              · simp only [needFuel, List.length_drop]; omega
              · simp only [needFuel, List.length_drop]; omega
            rw [hrec]
          · rw [if_neg hkb, if_neg hkb]
            by_cases hsp : 1 < (splitOnBar s).length
            · rw [if_pos hsp, if_pos hsp]
              have hsum := splitOnBar_sumLen s
              apply ih g1 (Nat.lt_succ_self g1) g2
              · simp only [needFuel]; omega
              · simp only [needFuel]; omega
            · rw [if_neg hsp, if_neg hsp]
    | inr ps =>
      cases ps with
      | nil =>
        simp only [needFuel, sumLen] at h1 h2
        obtain ⟨g1, rfl⟩ : ∃ g, f1 = g + 1 := ⟨f1 - 1, by omega⟩
        obtain ⟨g2, rfl⟩ : ∃ g, f2 = g + 1 := ⟨f2 - 1, by omega⟩
        rw [interpGo_inr_nil_succ, interpGo_inr_nil_succ]
      | cons p ps =>
        simp only [needFuel, sumLen, List.length_cons] at h1 h2
        obtain ⟨g1, rfl⟩ : ∃ g, f1 = g + 1 := ⟨f1 - 1, by omega⟩
        obtain ⟨g2, rfl⟩ : ∃ g, f2 = g + 1 := ⟨f2 - 1, by omega⟩
        rw [interpGo_inr_cons_succ, interpGo_inr_cons_succ]
        have e1 : interpGo vi g1 (.inl p) = interpGo vi g2 (.inl p) := by
          apply ih g1 (Nat.lt_succ_self g1) g2 <;> · simp only [needFuel]; omega
        have e2 : interpGo vi g1 (.inr ps) = interpGo vi g2 (.inr ps) := by
          apply ih g1 (Nat.lt_succ_self g1) g2 <;> · simp only [needFuel]; omega
        rw [e1, e2]

theorem interpGo_inl_eq (vi : ValueInterpreter) (f : Nat) (s : Str)
    (h : 4 * s.length + 2 ≤ f) : interpGo vi f (.inl s) = InterpretString vi s :=
  interpGo_eq vi f (4 * s.length + 2) (.inl s) (by simp [needFuel]; omega) (by simp [needFuel])

theorem interpGo_inr_eq (vi : ValueInterpreter) (f : Nat) (ps : List Str)
    (h : 4 * sumLen ps + 2 * ps.length + 1 ≤ f) :
    interpGo vi f (.inr ps) = InterpretParts vi ps :=
  interpGo_eq vi f (4 * sumLen ps + 2 * ps.length + 1) (.inr ps)
    (by simp [needFuel]; omega) (by simp [needFuel])

theorem pfx_append_ne_nil (p rest : Str) (hp : p ≠ []) : p ++ rest ≠ [] := by
  intro h
  exact hp (List.append_eq_nil.mp h).1

/-- One unfolding of `InterpretString` with the fuel already peeled. -/
theorem InterpretString_step (vi : ValueInterpreter) (s : Str) :
    InterpretString vi s =
      (if s = [] then .ok []
       else if startsWithL filePfx s then
         match vi.FileResolver with
         | none => .error ("parser FileResolver not provided")
         | some r => r (s.drop filePfx.length)
       else if startsWithL keccakPfx s then
         match interpGo vi (4 * s.length + 1) (.inl (s.drop keccakPfx.length)) with
         | .error e => .error (("cannot parse keccak256 argument: ") ++ e)
         | .ok arg =>
           match vi.keccak256 arg with
           | .error e => .error (("error computing keccak256: ") ++ e)
           | .ok h => .ok h
       else if 1 < (splitOnBar s).length then
         interpGo vi (4 * s.length + 1) (.inr (splitOnBar s))
       else interpretLower vi s) :=
  interpGo_inl_succ vi (4 * s.length + 1) s

theorem IS_dispatch_lower (vi : ValueInterpreter) (s : Str) (hne : s ≠ [])
    (hf : startsWithL filePfx s = false) (hk : startsWithL keccakPfx s = false)
    (hn : ¬1 < (splitOnBar s).length) :
    InterpretString vi s = interpretLower vi s := by
  rw [InterpretString_step, if_neg hne, if_neg (by simp [hf]), if_neg (by simp [hk]), if_neg hn]

theorem IS_dispatch_parts (vi : ValueInterpreter) (s : Str)
    (hf : startsWithL filePfx s = false) (hk : startsWithL keccakPfx s = false)
    (hn : 1 < (splitOnBar s).length) :
    InterpretString vi s = InterpretParts vi (splitOnBar s) := by
  have hne : s ≠ [] := by
    intro h
    subst h
    simp [splitOnBar] at hn
  rw [InterpretString_step, if_neg hne, if_neg (by simp [hf]), if_neg (by simp [hk]), if_pos hn]
  apply interpGo_inr_eq
  have := splitOnBar_sumLen s
  omega

theorem IS_file (vi : ValueInterpreter) (rest : Str) :
    InterpretString vi (filePfx ++ rest) =
      (match vi.FileResolver with
       | none => .error ("parser FileResolver not provided")
       | some r => r rest) := by
  rw [InterpretString_step, if_neg (pfx_append_ne_nil filePfx rest (by decide)),
    if_pos (startsWithL_append_self filePfx rest), List.drop_left]

theorem IS_keccak (vi : ValueInterpreter) (rest : Str) :
    InterpretString vi (keccakPfx ++ rest) =
      (match InterpretString vi rest with
       | .error e => .error (("cannot parse keccak256 argument: ") ++ e)
       | .ok arg =>
         match vi.keccak256 arg with
         | .error e => .error (("error computing keccak256: ") ++ e)
         | .ok h => .ok h) := by
  rw [InterpretString_step, if_neg (pfx_append_ne_nil keccakPfx rest (by decide)),
    if_neg (by simp [show startsWithL filePfx (keccakPfx ++ rest) = false from rfl]),
    if_pos (startsWithL_append_self keccakPfx rest), List.drop_left,
    interpGo_inl_eq vi _ rest (by
      have h10 : keccakPfx.length = 10 := rfl
      simp only [List.length_append]
      omega)]

theorem IP_nil (vi : ValueInterpreter) : InterpretParts vi [] = .ok [] := rfl

theorem IP_cons (vi : ValueInterpreter) (p : Str) (ps : List Str) :
    InterpretParts vi (p :: ps) =
      (match InterpretString vi p with
       | .error e => .error e
       | .ok v =>
         match InterpretParts vi ps with
         | .error e => .error e
         | .ok rest => .ok (v ++ rest)) := by
  have h : InterpretParts vi (p :: ps) =
      interpGo vi ((4 * sumLen (p :: ps) + 2 * (p :: ps).length) + 1) (.inr (p :: ps)) := rfl
  rw [h, interpGo_inr_cons_succ,
    interpGo_inl_eq vi _ p (by simp only [sumLen, List.length_cons]; omega),
    interpGo_inr_eq vi _ ps (by simp only [sumLen, List.length_cons]; omega)]

theorem IP_append (vi : ValueInterpreter) (ps qs : List Str) :
    InterpretParts vi (ps ++ qs) =
      (match InterpretParts vi ps with
       | .error e => .error e
       | .ok v =>
         match InterpretParts vi qs with
         | .error e => .error e
         | .ok w => .ok (v ++ w)) := by
  induction ps with
  | nil =>
    rw [List.nil_append, IP_nil]
    cases h : InterpretParts vi qs with
    | error e => rfl
    | ok w => simp
  | cons p ps ih =>
    rw [List.cons_append, IP_cons, IP_cons, ih]
    cases h1 : InterpretString vi p <;> cases h2 : InterpretParts vi ps <;>
      cases h3 : InterpretParts vi qs <;> simp [List.append_assoc]

/-- When neither the file nor the hash rule matches, interpreting a string
is the same as interpreting its bar-separated parts in order. -/
theorem IS_splits (vi : ValueInterpreter) (s : Str)
    (hf : startsWithL filePfx s = false) (hk : startsWithL keccakPfx s = false) :
    InterpretString vi s = InterpretParts vi (splitOnBar s) := by
  by_cases hn : 1 < (splitOnBar s).length
  · exact IS_dispatch_parts vi s hf hk hn
  · rw [splitOnBar_single s hn, IP_cons, IP_nil]
    cases h : InterpretString vi s with
    | error e => rfl
    | ok v => simp


-- Facts about hex decoding used for the hex-literal claim.

theorem hexDecode_all_valid : ∀ cs : Str, cs.length % 2 = 0 →
    (∀ c ∈ cs, (hexDigitVal c).isSome) → hexDecode cs = .ok (hexBytesOk cs)
  | [], _, _ => rfl
  | [c], h, _ => by simp at h
  | a :: b :: rest, h, hv => by
    obtain ⟨va, hva⟩ := Option.isSome_iff_exists.mp (hv a (by simp))
    obtain ⟨vb, hvb⟩ := Option.isSome_iff_exists.mp (hv b (by simp))
    have ih := hexDecode_all_valid rest (by simp only [List.length_cons] at h; omega)
      (fun c hc => hv c (by simp [hc]))
    simp [hexDecode, hexBytesOk, hva, hvb, ih, hexValD]

theorem hexBytesOk_length : ∀ cs : Str, (hexBytesOk cs).length = cs.length / 2
  | [] => rfl
  | [_] => by simp [hexBytesOk]
  | a :: b :: rest => by
    simp only [hexBytesOk, List.length_cons, hexBytesOk_length rest]
    omega

theorem hexFold_acc : ∀ cs : Str, cs.length % 2 = 0 → ∀ acc : Nat,
    List.foldl (fun a b => 256 * a + b) acc (hexBytesOk cs) =
    List.foldl (fun a c => 16 * a + hexValD c) acc cs
  | [], _, _ => rfl
  | [c], h, _ => by simp at h
  | a :: b :: rest, h, acc => by
    simp only [hexBytesOk, List.foldl_cons]
    rw [hexFold_acc rest (by simp only [List.length_cons] at h; omega)]
    congr 1
    ring

theorem beVal_hexBytesOk (cs : Str) (h : cs.length % 2 = 0) :
    beVal (hexBytesOk cs) = hexVal cs :=
  hexFold_acc cs h 0

theorem hexVal_pad (cs : Str) : hexVal (hexPad cs) = hexVal cs := by
  by_cases h : cs.length % 2 = 1
  · simp only [hexPad, if_pos h, hexVal, List.foldl_cons]
    have h0 : 16 * 0 + hexValD '0' = 0 := by decide
    rw [h0]
  · simp only [hexPad, if_neg h]

theorem hexPad_even (cs : Str) : (hexPad cs).length % 2 = 0 := by
  by_cases h : cs.length % 2 = 1
  · simp only [hexPad, if_pos h, List.length_cons]
    omega
  · simp only [hexPad, if_neg h]
    omega

theorem hexPad_valid (cs : Str) (hv : ∀ c ∈ cs, (hexDigitVal c).isSome) :
    ∀ c ∈ hexPad cs, (hexDigitVal c).isSome := by
  intro c hc
  by_cases h : cs.length % 2 = 1
  · simp only [hexPad, if_pos h] at hc
    rcases List.mem_cons.mp hc with h0 | h0
    · subst h0
      decide
    · exact hv c h0
  · simp only [hexPad, if_neg h] at hc
    exact hv c hc

theorem hexPad_length (cs : Str) : (hexPad cs).length / 2 = (cs.length + 1) / 2 := by
  by_cases h : cs.length % 2 = 1
  · simp only [hexPad, if_pos h, List.length_cons]
  · simp only [hexPad, if_neg h]
    omega

-- Behavior of the number path on signed base-10 remainders.

theorem IUN_neg (d : Str) (hstrip : stripSeps d = d) :
    interpretUnsignedNumber ('-' :: d) =
      (match digitsValOpt 10 d with
       | none => .error (("could not parse base 10 value: ") ++ chrs ('-' :: d))
       | some n => .ok (natToBEBytes n)) := by
  have h1 : interpretUnsignedNumber ('-' :: d) =
      (match bigIntSetString ('-' :: stripSeps d) 10 with
       | none => .error (("could not parse base 10 value: ") ++ chrs ('-' :: d))
       | some v => .ok (natToBEBytes v.natAbs)) := rfl
  rw [h1, hstrip]
  have h2 : bigIntSetString ('-' :: d) 10 = (digitsValOpt 10 d).map (fun n => -(n : Int)) := rfl
  rw [h2]
  cases h : digitsValOpt 10 d with
  | none => rfl
  | some n => simp

theorem IUNFW_of_ok (strRaw : Str) (w : Nat) (bs : List Nat)
    (h : interpretUnsignedNumber strRaw = .ok bs) (hw : 1 ≤ w) :
    (bs.length ≤ w → interpretUnsignedNumberFixedWidth strRaw w =
      .ok (List.replicate (w - bs.length) 0 ++ bs)) ∧
    (w < bs.length → interpretUnsignedNumberFixedWidth strRaw w =
      .error (("representation of ") ++ chrs strRaw ++ (" does not fit in ") ++
        toString w ++ (" bytes"))) := by
  simp only [interpretUnsignedNumberFixedWidth, h]
  constructor
  · intro hle
    rw [if_neg (show ¬w = 0 by omega), if_neg (show ¬w < bs.length by omega)]
    rfl
  · intro hlt
    rw [if_neg (show ¬w = 0 by omega), if_pos hlt]

theorem IS_prefix_lower (vi : ValueInterpreter) (pfx rest : Str) (hpne : pfx ≠ [])
    (hf : startsWithL filePfx (pfx ++ rest) = false)
    (hk : startsWithL keccakPfx (pfx ++ rest) = false)
    (hbarp : '|' ∉ pfx) (hbar : '|' ∉ rest) :
    InterpretString vi (pfx ++ rest) = interpretLower vi (pfx ++ rest) := by
  apply IS_dispatch_lower vi _ (pfx_append_ne_nil pfx rest hpne) hf hk
  rw [splitOnBar_nobar _ (by
    intro hm
    rcases List.mem_append.mp hm with hm | hm
    · exact hbarp hm
    · exact hbar hm)]
  simp

theorem IS_u64 (vi : ValueInterpreter) (rest : Str) (hbar : '|' ∉ rest) :
    InterpretString vi (u64Pfx ++ rest) = interpretUnsignedNumberFixedWidth rest 8 := by
  rw [IS_prefix_lower vi u64Pfx rest (by decide) rfl rfl (by decide) hbar]
  rw [show interpretLower vi (u64Pfx ++ rest) =
      (match (interpretUnsignedNumberFixedWidth rest 8).map some with
       | .error e => .error e
       | .ok (some r) => .ok r
       | .ok none => interpretNumber (u64Pfx ++ rest) 0) from rfl]
  cases h : interpretUnsignedNumberFixedWidth rest 8 <;> rfl

theorem IS_u32 (vi : ValueInterpreter) (rest : Str) (hbar : '|' ∉ rest) :
    InterpretString vi (u32Pfx ++ rest) = interpretUnsignedNumberFixedWidth rest 4 := by
  rw [IS_prefix_lower vi u32Pfx rest (by decide) rfl rfl (by decide) hbar]
  rw [show interpretLower vi (u32Pfx ++ rest) =
      (match (interpretUnsignedNumberFixedWidth rest 4).map some with
       | .error e => .error e
       | .ok (some r) => .ok r
       | .ok none => interpretNumber (u32Pfx ++ rest) 0) from rfl]
  cases h : interpretUnsignedNumberFixedWidth rest 4 <;> rfl

theorem IS_u16 (vi : ValueInterpreter) (rest : Str) (hbar : '|' ∉ rest) :
    InterpretString vi (u16Pfx ++ rest) = interpretUnsignedNumberFixedWidth rest 2 := by
  rw [IS_prefix_lower vi u16Pfx rest (by decide) rfl rfl (by decide) hbar]
  rw [show interpretLower vi (u16Pfx ++ rest) =
      (match (interpretUnsignedNumberFixedWidth rest 2).map some with
       | .error e => .error e
       | .ok (some r) => .ok r
       | .ok none => interpretNumber (u16Pfx ++ rest) 0) from rfl]
  cases h : interpretUnsignedNumberFixedWidth rest 2 <;> rfl

theorem IS_u8 (vi : ValueInterpreter) (rest : Str) (hbar : '|' ∉ rest) :
    InterpretString vi (u8Pfx ++ rest) = interpretUnsignedNumberFixedWidth rest 1 := by
  rw [IS_prefix_lower vi u8Pfx rest (by decide) rfl rfl (by decide) hbar]
  rw [show interpretLower vi (u8Pfx ++ rest) =
      (match (interpretUnsignedNumberFixedWidth rest 1).map some with
       | .error e => .error e
       | .ok (some r) => .ok r
       | .ok none => interpretNumber (u8Pfx ++ rest) 0) from rfl]
  cases h : interpretUnsignedNumberFixedWidth rest 1 <;> rfl

theorem IS_i64 (vi : ValueInterpreter) (rest : Str) (hbar : '|' ∉ rest) :
    InterpretString vi (i64Pfx ++ rest) = interpretNumber rest 8 := by
  rw [IS_prefix_lower vi i64Pfx rest (by decide) rfl rfl (by decide) hbar]
  rw [show interpretLower vi (i64Pfx ++ rest) =
      (match (interpretNumber rest 8).map some with
       | .error e => .error e
       | .ok (some r) => .ok r
       | .ok none => interpretNumber (i64Pfx ++ rest) 0) from rfl]
  cases h : interpretNumber rest 8 <;> rfl

theorem IS_i32 (vi : ValueInterpreter) (rest : Str) (hbar : '|' ∉ rest) :
    InterpretString vi (i32Pfx ++ rest) = interpretNumber rest 4 := by
  rw [IS_prefix_lower vi i32Pfx rest (by decide) rfl rfl (by decide) hbar]
  rw [show interpretLower vi (i32Pfx ++ rest) =
      (match (interpretNumber rest 4).map some with
       | .error e => .error e
       | .ok (some r) => .ok r
       | .ok none => interpretNumber (i32Pfx ++ rest) 0) from rfl]
  cases h : interpretNumber rest 4 <;> rfl

theorem IS_i16 (vi : ValueInterpreter) (rest : Str) (hbar : '|' ∉ rest) :
    InterpretString vi (i16Pfx ++ rest) = interpretNumber rest 2 := by
  rw [IS_prefix_lower vi i16Pfx rest (by decide) rfl rfl (by decide) hbar]
  rw [show interpretLower vi (i16Pfx ++ rest) =
      (match (interpretNumber rest 2).map some with
       | .error e => .error e
       | .ok (some r) => .ok r
       | .ok none => interpretNumber (i16Pfx ++ rest) 0) from rfl]
  cases h : interpretNumber rest 2 <;> rfl

theorem IS_i8 (vi : ValueInterpreter) (rest : Str) (hbar : '|' ∉ rest) :
    InterpretString vi (i8Pfx ++ rest) = interpretNumber rest 1 := by
  rw [IS_prefix_lower vi i8Pfx rest (by decide) rfl rfl (by decide) hbar]
  rw [show interpretLower vi (i8Pfx ++ rest) =
      (match (interpretNumber rest 1).map some with
       | .error e => .error e
       | .ok (some r) => .ok r
       | .ok none => interpretNumber (i8Pfx ++ rest) 0) from rfl]
  cases h : interpretNumber rest 1 <;> rfl

theorem interpretNumber_neg (d : Str) (bs : List Nat) (w : Nat)
    (h : interpretUnsignedNumber d = .ok bs) :
    interpretNumber ('-' :: d) w =
      (if w = 0 then .ok (twosToBytes (-(beVal bs : Int)))
       else twosToBytesOfLength (-(beVal bs : Int)) w) := by
  simp only [interpretNumber, h]
  simp only [true_or, if_true]

theorem containsSeg_append (pat pre : Str) : containsSeg pat (pre ++ pat) = true := by
  have hs : startsWithL pat pat = true := by
    have := startsWithL_append_self pat []
    rwa [List.append_nil] at this
  induction pre with
  | nil =>
    cases pat with
    | nil => rfl
    | cons c cs => simp [containsSeg, hs]
  | cons d pre ih => simp [containsSeg, ih]

theorem toList_append_chrs (a : String) (s : Str) : (a ++ chrs s).toList = a.toList ++ s :=
  String.data_append a (chrs s)

theorem IS_binary_malformed (vi : ValueInterpreter) (rest : Str) (hbar : '|' ∉ rest)
    (hparse : bigIntSetString (stripSeps rest) 2 = none) :
    InterpretString vi ('0' :: 'b' :: rest) =
      .error (("could not parse binary value: ") ++ chrs ('0' :: 'b' :: rest)) := by
  have hb0 : '|' ∉ ('0' :: 'b' :: rest) := by
    intro hm
    rcases List.mem_cons.mp hm with h | hm
    · exact absurd h (by decide)
    rcases List.mem_cons.mp hm with h | hm
    · exact absurd h (by decide)
    · exact hbar hm
  rw [IS_dispatch_lower vi ('0' :: 'b' :: rest) (List.cons_ne_nil _ _) rfl rfl
    (by rw [splitOnBar_nobar _ hb0]; simp)]
  rw [show interpretLower vi ('0' :: 'b' :: rest) =
      (match bigIntSetString (stripSeps rest) 2 with
       | none => .error (("could not parse binary value: ") ++ chrs ('0' :: 'b' :: rest))
       | some v => .ok (natToBEBytes v.natAbs)) from rfl]
  rw [hparse]

theorem IS_decimal_malformed (vi : ValueInterpreter) (c : Char) (rest : Str)
    (hf : startsWithL filePfx (c :: rest) = false)
    (hk : startsWithL keccakPfx (c :: rest) = false)
    (hbar : '|' ∉ (c :: rest))
    (hfalse : (c :: rest) ≠ falseLit) (htrue : (c :: rest) ≠ trueLit)
    (hstr : findStrPfx strPfxs (c :: rest) = none)
    (haddr : startsWithL addrPfx (c :: rest) = false)
    (hfw : tryInterpretFixedWidth (c :: rest) = .ok none)
    (hsign : ¬(c = '-' ∨ c = '+'))
    (hhex : (startsWithL (("0x").toList) (c :: rest) ||
      startsWithL (("0X").toList) (c :: rest)) = false)
    (hbin : (startsWithL (("0b").toList) (c :: rest) ||
      startsWithL (("0B").toList) (c :: rest)) = false)
    (hparse : bigIntSetString (stripSeps (c :: rest)) 10 = none) :
    InterpretString vi (c :: rest) =
      .error (("could not parse base 10 value: ") ++ chrs (c :: rest)) := by
  rw [IS_dispatch_lower vi _ (List.cons_ne_nil c rest) hf hk
    (by rw [splitOnBar_nobar _ hbar]; simp)]
  unfold interpretLower
  rw [if_neg hfalse, if_neg htrue]
  simp only [hstr]
  rw [if_neg (by simp [haddr])]
  simp only [hfw]
  simp only [interpretNumber]
  rw [if_neg hsign]
  simp only [if_true]
  simp only [interpretUnsignedNumber]
  rw [if_neg (by rw [hhex]; simp), if_neg (by rw [hbin]; simp)]
  simp only [hparse]

theorem interpretOJKVs_values (vi : ValueInterpreter) : ∀ kvs : OJsonKVList,
    interpretOJKVs vi kvs = interpretOJList vi (valuesOf kvs)
  | .nil => rfl
  | .cons k v rest => by
    simp only [interpretOJKVs, interpretOJList, valuesOf, interpretOJKVs_values vi rest]

-- The claims.

/-- C1, counterexample: the concatenation law fails as stated when the left
expression uses the `keccak256:` rule, because that prefix is dispatched
before the string is split on the bar. With `e1 = "keccak256:"` and
`e2 = "0x00"`, both expressions are valid, but interpreting the joined
string hashes the concatenation of the parts after the prefix (32 bytes),
while the concatenation of the two results has 33 bytes. -/
theorem concat_rule_counterexample :
    InterpretString vi0 ((("keccak256:").toList) ++ '|' :: (("0x00").toList)) =
      .ok (List.replicate 32 0) ∧
    InterpretString vi0 (("keccak256:").toList) = .ok (List.replicate 32 0) ∧
    InterpretString vi0 (("0x00").toList) = .ok [0] ∧
    (List.replicate 32 0 : List Nat) ≠ List.replicate 32 0 ++ [0] := by
  refine ⟨rfl, rfl, rfl, ?_⟩
  decide

/-- C1, amended: for expressions `e1`, `e2` neither of which starts with the
`file:` or `keccak256:` prefix, interpreting `e1 ++ "|" ++ e2` equals the
concatenation of the bytes of `InterpretString e1` and `InterpretString e2`
(with the first error propagated); with `e1 = ""` this gives the empty
string as left identity. -/
theorem concat_rule_amended (vi : ValueInterpreter) (e1 e2 : Str)
    (h1 : startsWithL filePfx e1 = false) (h2 : startsWithL keccakPfx e1 = false)
    (h3 : startsWithL filePfx e2 = false) (h4 : startsWithL keccakPfx e2 = false) :
    InterpretString vi (e1 ++ '|' :: e2) =
      (match InterpretString vi e1 with
       | .error e => .error e
       | .ok v1 =>
         match InterpretString vi e2 with
         | .error e => .error e
         | .ok v2 => .ok (v1 ++ v2)) := by
  have hf : startsWithL filePfx (e1 ++ '|' :: e2) = false :=
    not_startsWithL_append_bar filePfx e1 e2 (by decide) h1
  have hk : startsWithL keccakPfx (e1 ++ '|' :: e2) = false :=
    not_startsWithL_append_bar keccakPfx e1 e2 (by decide) h2
  rw [IS_splits vi _ hf hk, splitOnBar_append, IP_append,
    ← IS_splits vi e1 h1 h2, ← IS_splits vi e2 h3 h4]

/-- C1, witness for the amended theorem at `e1 = "str:ab"`, `e2 = "0x01"`. -/
theorem concat_rule_amended_witness :
    InterpretString vi0 ((("str:ab").toList) ++ '|' :: (("0x01").toList)) = .ok [97, 98, 1] := by
  have h := concat_rule_amended vi0 (("str:ab").toList) (("0x01").toList) rfl rfl rfl rfl
  exact h.trans rfl

/-- C2: a string starting with `file:` is resolved by passing the entire
remainder after the prefix, unmodified (never split on the bar), to the
configured resolver, whose bytes and error are returned as such; without a
resolver the interpreter fails with the missing-resolver error. -/
theorem file_rule (vi : ValueInterpreter) (rest : Str) :
    (vi.FileResolver = none →
      InterpretString vi (filePfx ++ rest) = .error ("parser FileResolver not provided")) ∧
    (∀ r, vi.FileResolver = some r → InterpretString vi (filePfx ++ rest) = r rest) := by
  constructor
  · intro h
    rw [IS_file, h]
  · intro r h
    rw [IS_file, h]

/-- C2, witness: a resolver returning the ASCII bytes of the logical name
receives `a|b` whole (the bar byte 124 appears in the output), and the
resolver-less interpreter fails. -/
theorem file_rule_witness :
    InterpretString viFile (filePfx ++ ("a|b").toList) = .ok [97, 124, 98] ∧
    InterpretString vi0 (filePfx ++ ("x").toList) =
      .error ("parser FileResolver not provided") := by
  constructor
  · exact ((file_rule viFile (("a|b").toList)).2 (fun cs => .ok (asciiBytes cs)) rfl).trans rfl
  · exact (file_rule vi0 (("x").toList)).1 rfl

/-- C3, counterexample: `0x0005` evaluates to `[0x00, 0x05]`, which is not
the minimal unsigned big-endian encoding of 5 (that is `[0x05]`): the hex
rule decodes the written digit pairs directly and keeps leading zero
bytes, so the result is not leading-zero free for a non-zero value. -/
theorem hex_rule_counterexample :
    InterpretString vi0 (("0x0005").toList) = .ok [0, 5] ∧
    natToBEBytes 5 = [5] ∧ ([0, 5] : List Nat) ≠ [5] := by
  refine ⟨rfl, rfl, ?_⟩
  decide

/-- C3, amended: a `0x`/`0X` literal whose digits are all valid hex digits
decodes to the direct big-endian byte decoding of the digits, with one zero
nibble prepended when the digit count is odd: the result has exactly
`(digits + 1) / 2` bytes whose big-endian value is the denoted value, and
leading zero digit pairs are preserved rather than minimized. -/
theorem hex_rule_amended (vi : ValueInterpreter) (digits : Str)
    (hval : ∀ c ∈ digits, (hexDigitVal c).isSome) :
    InterpretString vi ('0' :: 'x' :: digits) = .ok (hexBytesOk (hexPad digits)) ∧
    InterpretString vi ('0' :: 'X' :: digits) = .ok (hexBytesOk (hexPad digits)) ∧
    (hexBytesOk (hexPad digits)).length = (digits.length + 1) / 2 ∧
    beVal (hexBytesOk (hexPad digits)) = hexVal digits := by
  have hbar : ('|' : Char) ∉ digits := by
    intro hm
    have h := hval _ hm
    rw [show hexDigitVal '|' = none from rfl] at h
    simp at h
  have hdec : hexDecode (hexPad digits) = .ok (hexBytesOk (hexPad digits)) :=
    hexDecode_all_valid _ (hexPad_even digits) (hexPad_valid digits hval)
  have hbx : '|' ∉ ('0' :: 'x' :: digits) := by
    intro hm
    rcases List.mem_cons.mp hm with h | hm
    · exact absurd h (by decide)
    rcases List.mem_cons.mp hm with h | hm
    · exact absurd h (by decide)
    · exact hbar hm
  have hbX : '|' ∉ ('0' :: 'X' :: digits) := by
    intro hm
    rcases List.mem_cons.mp hm with h | hm
    · exact absurd h (by decide)
    rcases List.mem_cons.mp hm with h | hm
    · exact absurd h (by decide)
    · exact hbar hm
  refine ⟨?_, ?_, ?_, ?_⟩
  · rw [IS_dispatch_lower vi ('0' :: 'x' :: digits) (List.cons_ne_nil _ _) rfl rfl
      (by rw [splitOnBar_nobar _ hbx]; simp)]
    rw [show interpretLower vi ('0' :: 'x' :: digits) = hexDecode (hexPad digits) from rfl, hdec]
  · rw [IS_dispatch_lower vi ('0' :: 'X' :: digits) (List.cons_ne_nil _ _) rfl rfl
      (by rw [splitOnBar_nobar _ hbX]; simp)]
    rw [show interpretLower vi ('0' :: 'X' :: digits) = hexDecode (hexPad digits) from rfl, hdec]
  · rw [hexBytesOk_length, hexPad_length]
  · rw [beVal_hexBytesOk _ (hexPad_even digits), hexVal_pad]

/-- C3, witness for the amended theorem at the digits `0005`. -/
theorem hex_rule_amended_witness :
    InterpretString vi0 ('0' :: 'x' :: ("0005").toList) = .ok [0, 5] := by
  have h := (hex_rule_amended vi0 (("0005").toList) (by decide)).1
  exact h.trans rfl

/-- C4, counterexample: the i-prefixes do not always encode in two's
complement with an overflow error. The value 128 is not representable as a
one-byte two's-complement value (a two's-complement encoder at width 1
rejects it), yet i8:128 succeeds and returns [0x80]: an unsigned remainder
under an i-prefix is routed to the unsigned fixed-width encoder
(interpreter.go lines 185-190). Moreover i8:255 returns the same bytes as
i8:-1, a silent wrap the claim excludes. -/
theorem fixed_width_rule_counterexample :
    InterpretString vi0 (("i8:128").toList) = .ok [128] ∧
    fitsWidth 128 1 = false ∧
    twosToBytesOfLength 128 1 =
      .error ("argument does not fit in requested number of bytes") ∧
    InterpretString vi0 (("i8:255").toList) = .ok [255] ∧
    InterpretString vi0 (("i8:-1").toList) = .ok [255] := by
  refine ⟨rfl, ?_, rfl, rfl, rfl⟩
  decide

/-- C4, amended: the prefixes u8:/u16:/u32:/u64: encode the remainder
unsigned at widths 1/2/4/8 bytes, left-padding with zeros when the minimal
representation is shorter and failing with an error (never truncating) when
it is longer, so u32:5 is [0,0,0,5] and u8:256 fails. The prefixes
i8:/i16:/i32:/i64: select the same widths but apply two's-complement
encoding (with its own does-not-fit error) only when the remainder carries
a leading sign, as in i8:-1 = [0xFF]; a remainder without a sign under an
i-prefix is encoded by the unsigned fixed-width encoder, so i8:128
succeeds as [0x80] instead of failing. -/
theorem fixed_width_rule (vi : ValueInterpreter) :
    InterpretString vi (("u32:5").toList) = .ok [0, 0, 0, 5] ∧
    InterpretString vi (("i8:-1").toList) = .ok [255] ∧
    InterpretString vi (("u8:256").toList) =
      .error ("representation of 256 does not fit in 1 bytes") ∧
    InterpretString vi (("i8:128").toList) = .ok [128] ∧
    (∀ rest : Str, '|' ∉ rest →
      InterpretString vi (u64Pfx ++ rest) = interpretUnsignedNumberFixedWidth rest 8 ∧
      InterpretString vi (u32Pfx ++ rest) = interpretUnsignedNumberFixedWidth rest 4 ∧
      InterpretString vi (u16Pfx ++ rest) = interpretUnsignedNumberFixedWidth rest 2 ∧
      InterpretString vi (u8Pfx ++ rest) = interpretUnsignedNumberFixedWidth rest 1 ∧
      InterpretString vi (i64Pfx ++ rest) = interpretNumber rest 8 ∧
      InterpretString vi (i32Pfx ++ rest) = interpretNumber rest 4 ∧
      InterpretString vi (i16Pfx ++ rest) = interpretNumber rest 2 ∧
      InterpretString vi (i8Pfx ++ rest) = interpretNumber rest 1) ∧
    (∀ (rest : Str) (w : Nat) (bs : List Nat),
      interpretUnsignedNumber rest = .ok bs → 1 ≤ w →
      (bs.length ≤ w → interpretUnsignedNumberFixedWidth rest w =
        .ok (List.replicate (w - bs.length) 0 ++ bs)) ∧
      (w < bs.length → interpretUnsignedNumberFixedWidth rest w =
        .error (("representation of ") ++ chrs rest ++ (" does not fit in ") ++
          toString w ++ (" bytes")))) ∧
    (∀ (d : Str) (bs : List Nat) (w : Nat), interpretUnsignedNumber d = .ok bs →
      interpretNumber ('-' :: d) w =
        (if w = 0 then .ok (twosToBytes (-(beVal bs : Int)))
         else twosToBytesOfLength (-(beVal bs : Int)) w)) ∧
    (∀ (c : Char) (rest : Str) (w : Nat), ¬(c = '-' ∨ c = '+') → 1 ≤ w →
      interpretNumber (c :: rest) w = interpretUnsignedNumberFixedWidth (c :: rest) w) ∧
    (∀ (n : Int) (w : Nat), fitsWidth n w = false →
      twosToBytesOfLength n w = .error ("argument does not fit in requested number of bytes")) := by
  refine ⟨rfl, rfl, rfl, rfl, ?_, ?_, ?_, ?_, ?_⟩
  · intro rest hbar
    exact ⟨IS_u64 vi rest hbar, IS_u32 vi rest hbar, IS_u16 vi rest hbar, IS_u8 vi rest hbar,
      IS_i64 vi rest hbar, IS_i32 vi rest hbar, IS_i16 vi rest hbar, IS_i8 vi rest hbar⟩
  · intro rest w bs h hw
    exact IUNFW_of_ok rest w bs h hw
  · intro d bs w h
    exact interpretNumber_neg d bs w h
  · intro c rest w hsign hw
    simp only [interpretNumber]
    rw [if_neg hsign, if_neg (show ¬w = 0 by omega)]
  · intro n w h
    unfold twosToBytesOfLength
    rw [if_neg (by simp [h])]

/-- C4, witness: u16:300 is the two unsigned bytes of 300, and the
unsigned-remainder branch at width 1 encodes 128 as [0x80]. -/
theorem fixed_width_rule_witness :
    InterpretString vi0 (u16Pfx ++ ("300").toList) = .ok [1, 44] ∧
    interpretNumber ('1' :: ("28").toList) 1 = .ok [128] := by
  constructor
  · have h := ((fixed_width_rule vi0).2.2.2.2.1 (("300").toList) (by decide)).2.2.1
    exact h.trans rfl
  · have h := (fixed_width_rule vi0).2.2.2.2.2.2.2.1 '1' (("28").toList) 1
      (by decide) (by decide)
    exact h.trans rfl

/-- C5: a string starting with keccak256: recursively interprets the whole
remainder as one expression before any split on the bar, then applies the
hash collaborator, wrapping inner-parse and hash errors with context; in
particular keccak256:str:abc hashes the ASCII bytes of abc. -/
theorem keccak_rule (vi : ValueInterpreter) (rest : Str) :
    InterpretString vi (keccakPfx ++ rest) =
      (match InterpretString vi rest with
       | .error e => .error (("cannot parse keccak256 argument: ") ++ e)
       | .ok arg =>
         match vi.keccak256 arg with
         | .error e => .error (("error computing keccak256: ") ++ e)
         | .ok h => .ok h) ∧
    InterpretString vi (("keccak256:str:abc").toList) =
      (match vi.keccak256 (asciiBytes (("abc").toList)) with
       | .error e => .error (("error computing keccak256: ") ++ e)
       | .ok h => .ok h) := by
  refine ⟨IS_keccak vi rest, ?_⟩
  have he : ("keccak256:str:abc").toList = keccakPfx ++ ("str:abc").toList := rfl
  rw [he, IS_keccak vi (("str:abc").toList)]
  rw [show InterpretString vi (("str:abc").toList) = .ok (asciiBytes (("abc").toList)) from rfl]

/-- C6: evaluating a Mapping concatenates the evaluations of its values in
insertion order exactly as evaluating the Sequence of those values, keys
never influencing the result and the first error aborting in both. -/
theorem map_keys_ignored (vi : ValueInterpreter) (kvs : OJsonKVList) :
    InterpretSubTree vi (.map kvs) = InterpretSubTree vi (.list (valuesOf kvs)) := by
  simp only [InterpretSubTree]
  exact interpretOJKVs_values vi kvs

/-- C7: the empty string evaluates to no bytes, the exact literal false to
no bytes (not a zero byte), and the exact literal true to the byte 0x01. -/
theorem literal_rules (vi : ValueInterpreter) :
    InterpretString vi [] = .ok [] ∧
    InterpretString vi (("false").toList) = .ok [] ∧
    InterpretString vi (("true").toList) = .ok [1] :=
  ⟨rfl, rfl, rfl⟩

/-- C8, counterexample: the malformed hexadecimal literal 0xAG fails with
the hex decoder's error, which names only the first invalid byte G and
contains neither the offending text 0xAG nor its digit part AG. -/
theorem number_error_counterexample :
    InterpretString vi0 (("0xAG").toList) = .error ("encoding/hex: invalid byte: G") ∧
    containsSeg (("0xAG").toList) (("encoding/hex: invalid byte: G").toList) = false ∧
    containsSeg (("AG").toList) (("encoding/hex: invalid byte: G").toList) = false :=
  ⟨rfl, rfl, rfl⟩

/-- C8, amended: a malformed binary or base-10 literal fails with an error
naming the full offending text and the attempted base, and the call yields
no bytes; a malformed hexadecimal literal also fails outright, but its
error (from the hex decoder) names only the offending byte. -/
theorem number_error_amended (vi : ValueInterpreter) :
    (∀ rest : Str, '|' ∉ rest → bigIntSetString (stripSeps rest) 2 = none →
      InterpretString vi ('0' :: 'b' :: rest) =
        .error (("could not parse binary value: ") ++ chrs ('0' :: 'b' :: rest)) ∧
      containsSeg ('0' :: 'b' :: rest)
        ((("could not parse binary value: ") ++ chrs ('0' :: 'b' :: rest)).toList) = true) ∧
    (∀ (c : Char) (rest : Str),
      startsWithL filePfx (c :: rest) = false →
      startsWithL keccakPfx (c :: rest) = false →
      '|' ∉ (c :: rest) →
      (c :: rest) ≠ falseLit → (c :: rest) ≠ trueLit →
      findStrPfx strPfxs (c :: rest) = none →
      startsWithL addrPfx (c :: rest) = false →
      tryInterpretFixedWidth (c :: rest) = .ok none →
      ¬(c = '-' ∨ c = '+') →
      (startsWithL (("0x").toList) (c :: rest) ||
        startsWithL (("0X").toList) (c :: rest)) = false →
      (startsWithL (("0b").toList) (c :: rest) ||
        startsWithL (("0B").toList) (c :: rest)) = false →
      bigIntSetString (stripSeps (c :: rest)) 10 = none →
      InterpretString vi (c :: rest) =
        .error (("could not parse base 10 value: ") ++ chrs (c :: rest)) ∧
      containsSeg (c :: rest)
        ((("could not parse base 10 value: ") ++ chrs (c :: rest)).toList) = true) ∧
    InterpretString vi (("0xAG").toList) =
      .error (("encoding/hex: invalid byte: ") ++ chrs ['G']) := by
  refine ⟨?_, ?_, rfl⟩
  · intro rest hbar hparse
    refine ⟨IS_binary_malformed vi rest hbar hparse, ?_⟩
    rw [toList_append_chrs]
    exact containsSeg_append _ _
  · intro c rest hf hk hbar hfalse htrue hstr haddr hfw hsign hhex hbin hparse
    refine ⟨IS_decimal_malformed vi c rest hf hk hbar hfalse htrue hstr haddr hfw hsign
      hhex hbin hparse, ?_⟩
    rw [toList_append_chrs]
    exact containsSeg_append _ _

/-- C8, witness for the amended theorem: 0b102 and 12a fail with errors
naming the full text and the base. -/
theorem number_error_amended_witness :
    InterpretString vi0 ('0' :: 'b' :: ("102").toList) =
      .error ("could not parse binary value: 0b102") ∧
    InterpretString vi0 ('1' :: ("2a").toList) =
      .error ("could not parse base 10 value: 12a") := by
  constructor
  · exact (((number_error_amended vi0).1 (("102").toList) (by decide) rfl).1).trans rfl
  · exact (((number_error_amended vi0).2.1 '1' (("2a").toList) rfl rfl (by decide) (by decide)
      (by decide) rfl rfl rfl (by decide) rfl rfl rfl).1).trans rfl

/-- C9: an unsigned fixed-width literal with a base-10 remainder carrying a
leading minus sign is accepted, and the encoded bytes are those of the
absolute value, because the base-10 parser accepts a signed string and the
encoder takes the magnitude's bytes: u8:-1 evaluates to [0x01]. -/
theorem unsigned_negative_rule (vi : ValueInterpreter) :
    InterpretString vi (("u8:-1").toList) = .ok [1] ∧
    (∀ (d : Str) (n : Nat), '|' ∉ d → stripSeps d = d → digitsValOpt 10 d = some n →
      (natToBEBytes n).length ≤ 1 →
      InterpretString vi (u8Pfx ++ '-' :: d) =
        .ok (List.replicate (1 - (natToBEBytes n).length) 0 ++ natToBEBytes n)) := by
  constructor
  · rfl
  · intro d n hbar hstrip hdig hlen
    have hb2 : '|' ∉ ('-' :: d) := by
      intro hm
      rcases List.mem_cons.mp hm with h | h
      · exact absurd h (by decide)
      · exact hbar h
    rw [IS_u8 vi ('-' :: d) hb2]
    have hIUN : interpretUnsignedNumber ('-' :: d) = .ok (natToBEBytes n) := by
      rw [IUN_neg d hstrip, hdig]
    exact (IUNFW_of_ok ('-' :: d) 1 (natToBEBytes n) hIUN (by omega)).1 hlen

/-- C9, witness at u8:-1 via the general statement. -/
theorem unsigned_negative_rule_witness :
    InterpretString vi0 (u8Pfx ++ '-' :: ("1").toList) = .ok [1] := by
  have h := (unsigned_negative_rule vi0).2 (("1").toList) 1 (by decide) rfl rfl (by decide)
  exact h.trans rfl

/-- C10: the digit-grouping separators underscore and comma are stripped
before parsing binary and base-10 literals, but hexadecimal literals are
decoded from the raw unstripped text, where a separator is an invalid
byte: 0b1_1 and 0b1,1 give [0x03], 1_0 and 1,0 give [0x0A], while 0x1_1
and 0x1,1 fail in the hex decoder. -/
theorem digit_separator_rule (vi : ValueInterpreter) :
    InterpretString vi (("0b1_1").toList) = .ok [3] ∧
    InterpretString vi (("0b1,1").toList) = .ok [3] ∧
    InterpretString vi (("1_0").toList) = .ok [10] ∧
    InterpretString vi (("1,0").toList) = .ok [10] ∧
    InterpretString vi (("0x1_1").toList) =
      .error (("encoding/hex: invalid byte: ") ++ chrs ['_']) ∧
    InterpretString vi (("0x1,1").toList) =
      .error (("encoding/hex: invalid byte: ") ++ chrs [',']) :=
  ⟨rfl, rfl, rfl, rfl, rfl, rfl⟩
